import Mathlib

/-!
Verification of the flux-trainer dataset utilities (`src/utils.py`).

The development shallowly embeds the three functions the claims are about:

* `get_image_and_caption_paths` (utils.py lines 110-126): recursive walk
  classifying files by lowercased extension into image paths and caption
  paths, both sorted.
* `florence_caption_dataset` (utils.py lines 128-180): batch captioning;
  the captioning model itself is treated as an opaque deterministic
  per-image function (prompt and image path to parsed answer), as the spec
  treats it as a black box.  The per-caption text cleanup of lines 162-164
  and the caption-file writes of lines 165-168 are embedded exactly.
* `prep_dataset` (utils.py lines 182-224): the dataset normalizer.  The
  filesystem is embedded as a list of files (directory, name, content);
  image contents are embedded at the granularity of decoded metadata
  (width, height, color mode) plus the encoding container and quality.
  PIL operations are modelled at that granularity: `convert("RGB")` sets
  the mode, `thumbnail((2048, 2048), LANCZOS)` rescales the dimensions
  into the box preserving aspect ratio (nearest rounding, a faithful
  abstraction of PIL's rounding), `save(..., 'JPEG', quality=95)` produces
  a JPEG container at quality 95.  A file that PIL fails to decode is a
  `raw` content.  `img.save` may also fail at the filesystem level; that
  possibility is embedded by a `saveOk` oracle on the destination path
  (instantiated with `fun _ => true` when writes are assumed to succeed).

Python string/path primitives used by the source (`str.lower`,
`str.endswith`, `str.replace`, `os.path.splitext`, `os.path.basename`,
`os.path.dirname`, `os.path.flatten`, `list.sort`) are embedded as
executable functions on `List Char` mirroring CPython's documented
semantics (ASCII case mapping suffices for the extension checks the code
performs; `os.path.splitext` includes CPython's leading-dot rule under
which a name whose stem is all dots has no extension).
-/

/-! ## Python string and path primitives -/

/-- ASCII lowercasing of one character, as Python `str.lower` acts on ASCII. -/
def asciiLower (c : Char) : Char :=
  if 65 ≤ c.toNat ∧ c.toNat ≤ 90 then Char.ofNat (c.toNat + 32) else c

/-- Python `s.lower()` (ASCII fragment). -/
def strLower (s : String) : String := ⟨s.data.map asciiLower⟩

/-- Does the character list `pat` occur at the head of `s`? -/
def leadsWith : List Char → List Char → Bool
  | [], _ => true
  | _ :: _, [] => false
  | a :: as, b :: bs => a == b && leadsWith as bs

/-- Python `s.endswith(post)`. -/
def strEndsWith (s post : String) : Bool :=
  leadsWith post.data.reverse s.data.reverse

/-- Fueled worker for Python `str.replace`: scan left to right, replacing
each non-overlapping occurrence of `pat` by `rep`. -/
def pyReplaceAux (pat rep : List Char) : Nat → List Char → List Char
  | 0, s => s
  | _ + 1, [] => []
  | fuel + 1, c :: cs =>
    if leadsWith pat (c :: cs) then
      rep ++ pyReplaceAux pat rep fuel ((c :: cs).drop pat.length)
    else
      c :: pyReplaceAux pat rep fuel cs

/-- Python `s.replace(pat, rep)` for a non-empty pattern (the source only
replaces the non-empty patterns `"The image shows a "` and `"<pad>"`). -/
def pyReplace (s pat rep : String) : String :=
  if pat.data.isEmpty then s else ⟨pyReplaceAux pat.data rep.data s.data.length s.data⟩

/-- Index of the last `'.'` in a character list, if any. -/
def lastDotIdx : List Char → Option Nat
  | [] => none
  | c :: cs =>
    match lastDotIdx cs with
    | some i => some (i + 1)
    | none => if c == '.' then some 0 else none

/-- The split position used by `os.path.splitext` on a bare filename: the
last dot, provided some earlier character of the name is not a dot
(CPython's leading-dot rule, so `".bashrc"` and `"..."` have no extension). -/
def splitextIdx (cs : List Char) : Option Nat :=
  match lastDotIdx cs with
  | none => none
  | some d => if (cs.take d).any (fun c => c != '.') then some d else none

/-- `os.path.splitext(name)[0]` for a bare filename (no separator). -/
def splitextStem (name : String) : String :=
  match splitextIdx name.data with
  | none => name
  | some d => ⟨name.data.take d⟩

/-- `os.path.splitext(name)[1]` for a bare filename (no separator). -/
def splitextExt (name : String) : String :=
  match splitextIdx name.data with
  | none => ""
  | some d => ⟨name.data.drop d⟩

/-- `os.path.flatten(d, n)` for a directory `d` (empty or without trailing
slash, as produced by `os.walk`) and a bare name `n`. -/
def joinPath (d n : String) : String :=
  if d = "" then n else d ++ "/" ++ n

/-- `os.path.split(p)` for POSIX paths: the part after the last slash, and
the part before it with trailing slashes stripped unless it is all slashes. -/
def splitPath (p : String) : String × String :=
  let cs := p.data
  let tail := (cs.reverse.takeWhile (fun c => c != '/')).reverse
  let headAll := cs.take (cs.length - tail.length)
  let headStripped :=
    if headAll.all (fun c => c == '/') then headAll
    else (headAll.reverse.dropWhile (fun c => c == '/')).reverse
  (⟨headStripped⟩, ⟨tail⟩)

/-- `os.path.dirname`. -/
def dirnameStr (p : String) : String := (splitPath p).1

/-- `os.path.basename`. -/
def basenameStr (p : String) : String := (splitPath p).2

/-- Lexicographic comparison of character lists by code point, as Python
compares strings. -/
def charsLE : List Char → List Char → Bool
  | [], _ => true
  | _ :: _, [] => false
  | a :: as, b :: bs => if a == b then charsLE as bs else decide (a < b)

/-- Python string `<=` (code-point lexicographic). -/
def strLE (a b : String) : Bool := charsLE a.data b.data

/-- Insert a string into an already sorted list (helper for `sortStrings`). -/
def insertSorted (x : String) : List String → List String
  | [] => [x]
  | y :: ys => if strLE x y then x :: y :: ys else y :: insertSorted x ys

/-- Python `list.sort()` on strings, embedded as insertion sort (same
specification: a stable sort by code-point order). -/
def sortStrings : List String → List String
  | [] => []
  | x :: xs => insertSorted x (sortStrings xs)

/-! ## Data model: images, file contents, the filesystem tree -/

/-- Decoded image metadata: dimensions and color mode (PIL `Image.mode`,
e.g. "RGB", "RGBA", "L"). -/
structure ImageData where
  width : Nat
  height : Nat
  mode : String
  deriving Repr, DecidableEq

/-- PIL resampling filters relevant to the source (`Image.LANCZOS`). -/
inductive ResampleFilter where
  | lanczos
  | bicubic
  | nearest
  deriving Repr, DecidableEq

/-- Content of a file on disk: either an image PIL can decode, stored in a
container `format` (e.g. "JPEG", "PNG") with an optional encode `quality`,
or `raw` bytes that fail to decode (corrupt images, text files, caches). -/
inductive FileContent where
  | image (img : ImageData) (format : String) (quality : Option Nat)
  | raw (tag : String)
  deriving Repr, DecidableEq

/-- A file in the tree under the dataset root: its directory (as yielded by
`os.walk`), bare name, and content. -/
structure FsFile where
  dir : String
  name : String
  content : FileContent
  deriving Repr, DecidableEq

/-- `PIL.Image.open(...)` followed by header decode: succeeds exactly on
decodable image contents. -/
def decodeImage : FileContent → Option ImageData
  | .image i _ _ => some i
  | .raw _ => none

/-- `img.convert("RGB")` (utils.py line 199): dimensions kept, mode set. -/
def convertRGB (i : ImageData) : ImageData := { i with mode := "RGB" }

/-- Round `a / b` to the nearest natural number (half away from zero). -/
def roundDiv (a b : Nat) : Nat := (a + b / 2) / b

/-- Dimensions produced by `img.thumbnail((2048, 2048), ...)`: scale down
preserving aspect ratio so that the result fits into a 2048 by 2048 box;
abstraction of PIL's rounding, each dimension at least 1. -/
def thumbnailDims (w h : Nat) : Nat × Nat :=
  if w ≤ h then (max 1 (roundDiv (2048 * w) h), 2048)
  else (2048, max 1 (roundDiv (2048 * h) w))

/-- `img.thumbnail((2048, 2048), flt)` (utils.py line 203) on decoded
metadata: resampling itself is opaque at this granularity, the filter
argument mirrors the call site. -/
def thumbnailImg (_flt : ResampleFilter) (i : ImageData) : ImageData :=
  let p := thumbnailDims i.width i.height
  { i with width := p.1, height := p.2 }

/-- The resize guard of utils.py line 201: `max(img.width, img.height) > 2048`. -/
def resizeNeeded (i : ImageData) : Bool := decide (2048 < max i.width i.height)

/-- The in-memory image just before saving: converted to RGB and, when the
resize guard fires, downsampled with LANCZOS (utils.py lines 199-203). -/
def normalizeImage (i : ImageData) : ImageData :=
  let i1 := convertRGB i
  if resizeNeeded i1 then thumbnailImg ResampleFilter.lanczos i1 else i1

/-- `img.save(path, 'JPEG', quality=95)` (utils.py line 209): the written
content, a JPEG container at quality 95 holding the in-memory image. -/
def encodeJPEG (i : ImageData) : FileContent := .image i "JPEG" (some 95)

/-- The canonical output content the normalizer aims for: a decodable JPEG
at quality 95, RGB mode, longest side at most 2048. -/
def isCanonicalContent : FileContent → Bool
  | .image i fmt q =>
    decide (fmt = "JPEG") && decide (q = some 95) && decide (i.mode = "RGB")
      && decide (max i.width i.height ≤ 2048)
  | .raw _ => false

/-- `os.path.splitext(file)[0] + '.jpg'` (utils.py line 207): the canonical
output filename for an input filename. -/
def canonName (name : String) : String := splitextStem name ++ ".jpg"

/-- Lookup a file's content in the tree by directory and name (first match,
as the filesystem holds at most one file per path). -/
def lookupTree : List FsFile → String → String → Option FileContent
  | [], _, _ => none
  | f :: fs, d, n =>
    if f.dir = d ∧ f.name = n then some f.content else lookupTree fs d n

/-- Remove the file at a path from the tree (`os.remove`, or the implicit
removal half of a move/overwrite). -/
def removeTree : List FsFile → String → String → List FsFile
  | [], _, _ => []
  | f :: fs, d, n =>
    if f.dir = d ∧ f.name = n then removeTree fs d n else f :: removeTree fs d n

/-- Write content at a path, replacing any file already there. -/
def writeTree (t : List FsFile) (d n : String) (c : FileContent) : List FsFile :=
  ⟨d, n, c⟩ :: removeTree t d n

/-- Drop the quarantine entry with a given bare name, if present. -/
def removeErrors : List (String × FileContent) → String → List (String × FileContent)
  | [], _ => []
  | q :: qs, n => if q.1 = n then removeErrors qs n else q :: removeErrors qs n

/-- Quarantine directory contents: bare filename to content.  `shutil.move`
with an existing identically-named destination overwrites it. -/
def writeErrors (errs : List (String × FileContent)) (n : String) (c : FileContent) :
    List (String × FileContent) :=
  (n, c) :: removeErrors errs n

/-- Lookup a quarantined file by bare name. -/
def lookupErrors : List (String × FileContent) → String → Option FileContent
  | [], _ => none
  | q :: qs, n => if q.1 = n then some q.2 else lookupErrors qs n

/-! ## The normalizer `prep_dataset` (utils.py lines 182-224) -/

/-- State threaded through a `prep_dataset` pass: the files under the root,
the quarantine directory (the `errors` sibling), and the two counters
printed at the end. -/
structure PrepState where
  tree : List FsFile
  errors : List (String × FileContent)
  totalImgs : Nat
  resized : Nat
  deriving Repr, DecidableEq

/-- The `except` branch of utils.py lines 216-219: `shutil.move(file_path,
os.path.flatten(error_dir, file))` — the file leaves the tree and lands in the
quarantine directory under its bare name. -/
def quarantine (s : PrepState) (d n : String) (c : FileContent) : PrepState :=
  { s with tree := removeTree s.tree d n, errors := writeErrors s.errors n c }

/-- One iteration of the `prep_dataset` file loop (utils.py lines 190-219)
on the walk entry `(subdir, file)`.  `saveOk` tells whether `img.save`
succeeds at a destination path; on a save failure the broad `except`
quarantines the original file (with `resized` already incremented, as the
source increments it before saving). -/
def prepStep (softClean : Bool) (saveOk : String → Bool) (s : PrepState)
    (entry : String × String) : PrepState :=
  let subdir := entry.1
  let file := entry.2
  let filePath := joinPath subdir file
  if softClean = true ∧
      (strEndsWith (strLower filePath) ".txt" = true ∨
       strEndsWith (strLower filePath) ".npz" = true) then
    s
  else
    match lookupTree s.tree subdir file with
    | none => s
    | some c =>
      match decodeImage c with
      | none => quarantine s subdir file c
      | some img =>
        let addResized := if resizeNeeded (convertRGB img) then 1 else 0
        let newFilename := canonName file
        let newFilePath := joinPath subdir newFilename
        if saveOk newFilePath then
          let t1 := writeTree s.tree subdir newFilename (encodeJPEG (normalizeImage img))
          let t2 := if newFilePath = filePath then t1 else removeTree t1 subdir file
          { tree := t2, errors := s.errors,
            totalImgs := s.totalImgs + 1, resized := s.resized + addResized }
        else
          { quarantine s subdir file c with resized := s.resized + addResized }

/-- The walk key of a file. -/
def keyOf (f : FsFile) : String × String := (f.dir, f.name)

/-- Fold the per-file step over a list of walk entries. -/
def prepPass (softClean : Bool) (saveOk : String → Bool) (s : PrepState)
    (entries : List (String × String)) : PrepState :=
  entries.foldl (prepStep softClean saveOk) s

/-- `prep_dataset(root_directory, soft_clean)` on a tree of files: `os.walk`
enumerates exactly the files present at the start (outputs are written into
the directory being iterated, whose listing was already taken, and the
quarantine directory is a sibling of the root, outside the walk), so the
pass folds the per-file step over the initial files in walk order. -/
def prepDataset (softClean : Bool) (saveOk : String → Bool) (t : List FsFile) : PrepState :=
  prepPass softClean saveOk ⟨t, [], 0, 0⟩ (t.map keyOf)

/-! ## Path discovery and the batch captioner (utils.py lines 110-180) -/

/-- The image-extension test of utils.py line 117:
`file.lower().endswith(('.jpg', '.jpeg', '.png'))`. -/
def isImageName (file : String) : Bool :=
  strEndsWith (strLower file) ".jpg" || strEndsWith (strLower file) ".jpeg"
    || strEndsWith (strLower file) ".png"

/-- The caption-extension test of utils.py line 119:
`file.lower().endswith('.txt')`. -/
def isCaptionName (file : String) : Bool := strEndsWith (strLower file) ".txt"

/-- `get_image_and_caption_paths(dataset_dir)` (utils.py lines 110-126) on
an `os.walk` result, given as the list of `(root, files)` pairs the walk
yields: classify each file by lowercased extension, collect joined paths,
and sort both lists. -/
def getImageAndCaptionPaths (walk : List (String × List String)) :
    List String × List String :=
  let acc := walk.foldl
    (fun acc entry =>
      entry.2.foldl
        (fun acc2 file =>
          if isImageName file then (acc2.1 ++ [joinPath entry.1 file], acc2.2)
          else if isCaptionName file then (acc2.1, acc2.2 ++ [joinPath entry.1 file])
          else acc2)
        acc)
    ([], [])
  (sortStrings acc.1, sortStrings acc.2)

/-- The caption text cleanup of utils.py lines 163-164, exactly as written:
the substituted string of line 163 is shadowed by line 164, which recomputes
from the unmodified parsed answer. -/
def florenceCaption (parsedAnswer : String) : String :=
  let caption := pyReplace parsedAnswer "The image shows a " "A "
  let caption := pyReplace parsedAnswer "<pad>" ""
  caption

/-- The caption file path of utils.py lines 165-167:
`f"{os.path.flatten(dirname, basename)}.txt"` where `basename` is the image
filename without its extension and `dirname` its directory. -/
def captionOutPath (path : String) : String :=
  let basename := splitextStem (basenameStr path)
  let dirname := dirnameStr path
  joinPath dirname basename ++ ".txt"

/-- Drop the caption file at a path, if present (overwrite helper). -/
def removeStore : List (String × String) → String → List (String × String)
  | [], _ => []
  | q :: qs, p => if q.1 = p then removeStore qs p else q :: removeStore qs p

/-- The caption store: caption-file path to text.  `open(..., "w")` followed
by `write` fully replaces any previous content at the path. -/
def writeStore (store : List (String × String)) (p content : String) :
    List (String × String) :=
  (p, content) :: removeStore store p

/-- Lookup a caption file's content by path. -/
def lookupStore : List (String × String) → String → Option String
  | [], _ => none
  | q :: qs, p => if q.1 = p then some q.2 else lookupStore qs p

/-- Fueled contiguous chunking: `paths[i:i+bs]` for `i = 0, bs, 2*bs, ...`,
the batches of the loop at utils.py line 147.  Fuel bounds the recursion
(instantiated with the list length, sufficient when `bs > 0`). -/
def chunkListAux (bs : Nat) : Nat → List α → List (List α)
  | 0, _ => []
  | _ + 1, [] => []
  | fuel + 1, x :: xs => (x :: xs).take bs :: chunkListAux bs fuel ((x :: xs).drop bs)

/-- The batches `image_paths[i:i+batch_size]` of the loop
`for i in tqdm(range(0, len(image_paths), batch_size))` (utils.py
lines 147-148); `range` with step 0 raises in Python, embedded as no
batches. -/
def chunkList (bs : Nat) (l : List α) : List (List α) :=
  if bs = 0 then [] else chunkListAux bs l.length l

/-- The batch loop of `florence_caption_dataset` (utils.py lines 147-168):
`model` is the opaque deterministic captioning pipeline (task prompt and
image path to the parsed answer `parsed_answer[caption_mode]`); each image
of each batch gets its cleaned caption written to its caption path. -/
def runCaptioner (model : String → String → String) (captionMode : String)
    (batchSize : Nat) (imagePaths : List String)
    (store : List (String × String)) : List (String × String) :=
  (chunkList batchSize imagePaths).foldl
    (fun st batch =>
      batch.foldl
        (fun st2 path =>
          writeStore st2 (captionOutPath path) (florenceCaption (model captionMode path)))
        st)
    store

/-- `florence_caption_dataset(dataset_dir, caption_mode, ..., batch_size)`
(utils.py lines 128-180): discover image paths, then run the batch loop.
Model loading, memory release and the progress/warning prints are I/O with
no effect on the caption files. -/
def florenceCaptionDataset (model : String → String → String) (captionMode : String)
    (batchSize : Nat) (walk : List (String × List String))
    (store : List (String × String)) : List (String × String) :=
  let paths := getImageAndCaptionPaths walk
  runCaptioner model captionMode batchSize paths.1 store

/-! ## Helper lemmas: tree, store and quarantine maps -/

theorem lookupTree_removeTree (t : List FsFile) (d n d₂ n₂ : String) :
    lookupTree (removeTree t d n) d₂ n₂ =
      if d₂ = d ∧ n₂ = n then none else lookupTree t d₂ n₂ := by
  induction t with
  | nil =>
    by_cases h : d₂ = d ∧ n₂ = n <;> simp [removeTree, lookupTree, h]
  | cons f fs ih =>
    by_cases hf : f.dir = d ∧ f.name = n
    · rw [removeTree, if_pos hf, ih]
      by_cases h2 : d₂ = d ∧ n₂ = n
      · simp [h2]
      · have hm : ¬ (f.dir = d₂ ∧ f.name = n₂) := by
          intro hc
          exact h2 ⟨hc.1.symm.trans hf.1, hc.2.symm.trans hf.2⟩
        simp [h2, lookupTree, hm]
    · rw [removeTree, if_neg hf]
      by_cases hm : f.dir = d₂ ∧ f.name = n₂
      · have h2 : ¬ (d₂ = d ∧ n₂ = n) := by
          intro hc
          exact hf ⟨hm.1.trans hc.1, hm.2.trans hc.2⟩
        simp [lookupTree, hm, h2]
      · simp [lookupTree, hm, ih]

theorem lookupTree_removeTree_self (t : List FsFile) (d n : String) :
    lookupTree (removeTree t d n) d n = none := by
  simp [lookupTree_removeTree]

theorem lookupTree_removeTree_ne (t : List FsFile) (d n d₂ n₂ : String)
    (h : ¬ (d₂ = d ∧ n₂ = n)) :
    lookupTree (removeTree t d n) d₂ n₂ = lookupTree t d₂ n₂ := by
  simp [lookupTree_removeTree, h]

theorem lookupTree_writeTree (t : List FsFile) (d n : String) (c : FileContent)
    (d₂ n₂ : String) :
    lookupTree (writeTree t d n c) d₂ n₂ =
      if d₂ = d ∧ n₂ = n then some c else lookupTree t d₂ n₂ := by
  by_cases h : d₂ = d ∧ n₂ = n
  · simp [writeTree, lookupTree, h]
  · have hne : ¬ (d = d₂ ∧ n = n₂) := by
      intro hc; exact h ⟨hc.1.symm, hc.2.symm⟩
    simp [writeTree, lookupTree, hne, h, lookupTree_removeTree_ne]

theorem lookupTree_writeTree_self (t : List FsFile) (d n : String) (c : FileContent) :
    lookupTree (writeTree t d n c) d n = some c := by
  simp [lookupTree_writeTree]

theorem lookupTree_isSome_of_mem (t : List FsFile) (f : FsFile) (h : f ∈ t) :
    lookupTree t f.dir f.name ≠ none := by
  induction t with
  | nil => cases h
  | cons g gs ih =>
    rcases List.mem_cons.mp h with rfl | hmem
    · simp [lookupTree]
    · by_cases hg : g.dir = f.dir ∧ g.name = f.name
      · simp [lookupTree, hg]
      · simp only [lookupTree, if_neg hg]
        exact ih hmem

theorem mem_of_lookupTree_eq_some (t : List FsFile) (d n : String) (c : FileContent)
    (h : lookupTree t d n = some c) : FsFile.mk d n c ∈ t := by
  induction t with
  | nil => simp [lookupTree] at h
  | cons g gs ih =>
    by_cases hg : g.dir = d ∧ g.name = n
    · rw [lookupTree, if_pos hg, Option.some_inj] at h
      have : g = FsFile.mk d n c := by
        cases g
        simp only [FsFile.mk.injEq]
        exact ⟨hg.1, hg.2, h⟩
      exact this ▸ List.mem_cons_self _ _
    · rw [lookupTree, if_neg hg] at h
      exact List.mem_cons_of_mem _ (ih h)

theorem mem_removeTree (t : List FsFile) (d n : String) (g : FsFile)
    (h : g ∈ removeTree t d n) : g ∈ t ∧ ¬ (g.dir = d ∧ g.name = n) := by
  induction t with
  | nil => cases h
  | cons f fs ih =>
    by_cases hf : f.dir = d ∧ f.name = n
    · rw [removeTree, if_pos hf] at h
      have := ih h
      exact ⟨List.mem_cons_of_mem _ this.1, this.2⟩
    · rw [removeTree, if_neg hf] at h
      rcases List.mem_cons.mp h with rfl | hmem
      · exact ⟨List.mem_cons_self _ _, hf⟩
      · have := ih hmem
        exact ⟨List.mem_cons_of_mem _ this.1, this.2⟩

theorem mem_writeTree (t : List FsFile) (d n : String) (c : FileContent) (g : FsFile)
    (h : g ∈ writeTree t d n c) :
    g = FsFile.mk d n c ∨ (g ∈ t ∧ ¬ (g.dir = d ∧ g.name = n)) := by
  rcases List.mem_cons.mp h with h1 | h2
  · exact Or.inl h1
  · exact Or.inr (mem_removeTree _ _ _ _ h2)

theorem lookupErrors_removeErrors (errs : List (String × FileContent)) (n m : String) :
    lookupErrors (removeErrors errs n) m =
      if m = n then none else lookupErrors errs m := by
  induction errs with
  | nil => by_cases h : m = n <;> simp [removeErrors, lookupErrors, h]
  | cons q qs ih =>
    by_cases hq : q.1 = n
    · rw [removeErrors, if_pos hq, ih]
      by_cases h : m = n
      · simp [h]
      · have : ¬ q.1 = m := by rw [hq]; intro hc; exact h hc.symm
        simp [h, lookupErrors, this]
    · rw [removeErrors, if_neg hq]
      by_cases hm : q.1 = m
      · have h2 : ¬ m = n := by rw [← hm]; exact hq
        simp [lookupErrors, hm, h2]
      · simp [lookupErrors, hm, ih]

theorem lookupErrors_writeErrors (errs : List (String × FileContent))
    (n : String) (c : FileContent) (m : String) :
    lookupErrors (writeErrors errs n c) m =
      if n = m then some c else lookupErrors errs m := by
  by_cases h : n = m
  · simp [writeErrors, lookupErrors, h]
  · have h2 : ¬ m = n := fun hc => h hc.symm
    simp [writeErrors, lookupErrors, h, lookupErrors_removeErrors, h2]

theorem lookupErrors_isSome_mono (errs : List (String × FileContent))
    (n : String) (c : FileContent) (m : String) (h : lookupErrors errs m ≠ none) :
    lookupErrors (writeErrors errs n c) m ≠ none := by
  rw [lookupErrors_writeErrors]
  by_cases hnm : n = m
  · simp [hnm]
  · simpa [hnm] using h

theorem lookupStore_removeStore (store : List (String × String)) (p q : String) :
    lookupStore (removeStore store p) q =
      if q = p then none else lookupStore store q := by
  induction store with
  | nil => by_cases h : q = p <;> simp [removeStore, lookupStore, h]
  | cons r rs ih =>
    by_cases hr : r.1 = p
    · rw [removeStore, if_pos hr, ih]
      by_cases h : q = p
      · simp [h]
      · have : ¬ r.1 = q := by rw [hr]; intro hc; exact h hc.symm
        simp [h, lookupStore, this]
    · rw [removeStore, if_neg hr]
      by_cases hm : r.1 = q
      · have h2 : ¬ q = p := by rw [← hm]; exact hr
        simp [lookupStore, hm, h2]
      · simp [lookupStore, hm, ih]

theorem lookupStore_writeStore (store : List (String × String)) (p v q : String) :
    lookupStore (writeStore store p v) q =
      if q = p then some v else lookupStore store q := by
  by_cases h : q = p
  · simp [writeStore, lookupStore, h]
  · have h2 : ¬ p = q := fun hc => h hc.symm
    simp [writeStore, lookupStore, h2, lookupStore_removeStore, h]

/-! ## Helper lemmas: strings, splitext, joinPath -/

theorem strMk_append (a b : List Char) :
    String.mk a ++ String.mk b = String.mk (a ++ b) := rfl

theorem strData_append (a b : String) : (a ++ b).data = a.data ++ b.data := by
  cases a; cases b; rfl

theorem strExt (a b : String) (h : a.data = b.data) : a = b := by
  cases a; cases b; exact congrArg String.mk h

theorem lastDotIdx_append (cs ext : List Char) (k : Nat)
    (hext : lastDotIdx ext = some k) :
    lastDotIdx (cs ++ ext) = some (cs.length + k) := by
  induction cs with
  | nil => simpa using hext
  | cons c cs ih =>
    show lastDotIdx (c :: (cs ++ ext)) = _
    rw [lastDotIdx, ih]
    simp [Nat.succ_add]

theorem splitextIdx_some_inv (cs : List Char) (d : Nat)
    (h : splitextIdx cs = some d) :
    lastDotIdx cs = some d ∧ (cs.take d).any (fun c => c != '.') = true := by
  unfold splitextIdx at h
  cases hl : lastDotIdx cs with
  | none => rw [hl] at h; cases h
  | some k =>
    rw [hl] at h
    have h2 : (if (cs.take k).any (fun c => c != '.') = true then some k else none)
        = some d := h
    by_cases hc : (cs.take k).any (fun c => c != '.') = true
    · rw [if_pos hc] at h2
      cases h2
      exact ⟨rfl, hc⟩
    · rw [if_neg hc] at h2
      cases h2

theorem splitextIdx_append (b ext : String)
    (hany : b.data.any (fun c => c != '.') = true)
    (hext : lastDotIdx ext.data = some 0) :
    splitextIdx (b ++ ext).data = some b.data.length := by
  have h1 : lastDotIdx (b ++ ext).data = some b.data.length := by
    rw [strData_append]
    simpa using lastDotIdx_append b.data ext.data 0 hext
  have h2 : (List.take b.data.length (b ++ ext).data).any (fun c => c != '.') = true := by
    rw [strData_append, List.take_left]
    exact hany
  unfold splitextIdx
  rw [h1]
  show (if (List.take b.data.length (b ++ ext).data).any (fun c => c != '.') = true
      then some b.data.length else none) = some b.data.length
  rw [if_pos h2]

theorem splitextStem_append (b ext : String)
    (hany : b.data.any (fun c => c != '.') = true)
    (hext : lastDotIdx ext.data = some 0) :
    splitextStem (b ++ ext) = b := by
  unfold splitextStem
  rw [splitextIdx_append b ext hany hext]
  show String.mk (List.take b.data.length (b ++ ext).data) = b
  apply strExt
  simp [strData_append, List.take_left]

theorem splitextStem_append_splitextExt (n : String) :
    splitextStem n ++ splitextExt n = n := by
  unfold splitextStem splitextExt
  cases h : splitextIdx n.data with
  | none =>
    cases n with
    | mk cs => exact strExt _ _ (by simp [strData_append])
  | some d =>
    cases n with
    | mk cs =>
      rw [strMk_append]
      exact strExt _ _ (by simp)

theorem canonName_eq_self_of_ext_jpg (n : String) (h : splitextExt n = ".jpg") :
    canonName n = n := by
  unfold canonName
  rw [← h, splitextStem_append_splitextExt]

theorem splitextStem_any_nonDot (n : String)
    (h : n.data.any (fun c => c != '.') = true) :
    (splitextStem n).data.any (fun c => c != '.') = true := by
  unfold splitextStem
  cases hidx : splitextIdx n.data with
  | none => exact h
  | some d =>
    have hc := (splitextIdx_some_inv n.data d hidx).2
    simpa using hc

theorem canonName_canonName (n : String)
    (h : n.data.any (fun c => c != '.') = true) :
    canonName (canonName n) = canonName n := by
  show canonName (splitextStem n ++ ".jpg") = _
  unfold canonName
  rw [splitextStem_append (splitextStem n) ".jpg" (splitextStem_any_nonDot n h)
    (by decide)]

theorem joinPath_inj_right (d a b : String) :
    joinPath d a = joinPath d b ↔ a = b := by
  unfold joinPath
  by_cases hd : d = ""
  · simp [hd]
  · rw [if_neg hd, if_neg hd]
    constructor
    · intro h
      have h2 := congrArg String.data h
      rw [strData_append, strData_append] at h2
      exact strExt _ _ (List.append_cancel_left h2)
    · intro h; rw [h]

/-! ## Helper lemmas: thumbnail bounds and canonical contents -/

theorem roundDiv_le (w h : Nat) (hw : 0 < h) (hle : w ≤ h) :
    roundDiv (2048 * w) h ≤ 2048 := by
  unfold roundDiv
  have h1 : 2048 * w + h / 2 ≤ h / 2 + h * 2048 := by
    have := Nat.mul_le_mul_left 2048 hle
    omega
  have h2 : (h / 2 + h * 2048) / h = h / 2 / h + 2048 := Nat.add_mul_div_left _ _ hw
  have h3 : h / 2 / h = 0 := Nat.div_eq_of_lt (Nat.div_lt_self hw (by norm_num))
  calc (2048 * w + h / 2) / h ≤ (h / 2 + h * 2048) / h := Nat.div_le_div_right h1
    _ = 2048 := by rw [h2, h3]

theorem thumbnailDims_le (w h : Nat) (hgt : 2048 < max w h) :
    (thumbnailDims w h).1 ≤ 2048 ∧ (thumbnailDims w h).2 ≤ 2048 := by
  unfold thumbnailDims
  by_cases hc : w ≤ h
  · have hh : 0 < h := by omega
    have := roundDiv_le w h hh hc
    rw [if_pos hc]
    exact ⟨max_le (by norm_num) this, le_refl _⟩
  · have hw : 0 < w := by omega
    have := roundDiv_le h w hw (by omega)
    rw [if_neg hc]
    exact ⟨le_refl _, max_le (by norm_num) this⟩

theorem normalizeImage_mode (i : ImageData) : (normalizeImage i).mode = "RGB" := by
  simp only [normalizeImage]
  split
  · simp [thumbnailImg, convertRGB]
  · simp [convertRGB]

theorem normalizeImage_le (i : ImageData) :
    (normalizeImage i).width ≤ 2048 ∧ (normalizeImage i).height ≤ 2048 := by
  simp only [normalizeImage]
  split
  next hr =>
    have hr2 : resizeNeeded (convertRGB i) = true := hr
    unfold resizeNeeded at hr2
    have hgt := of_decide_eq_true hr2
    have hb := thumbnailDims_le (convertRGB i).width (convertRGB i).height hgt
    simpa [thumbnailImg] using hb
  next hr =>
    have hle : ¬ 2048 < max (convertRGB i).width (convertRGB i).height := by
      intro hcon
      exact hr (by unfold resizeNeeded; exact decide_eq_true hcon)
    have hm2 : max (convertRGB i).width (convertRGB i).height ≤ 2048 :=
      Nat.le_of_not_lt hle
    exact ⟨le_of_max_le_left hm2, le_of_max_le_right hm2⟩

theorem isCanonicalContent_encode (i : ImageData) :
    isCanonicalContent (encodeJPEG (normalizeImage i)) = true := by
  have hm := normalizeImage_mode i
  have hd := normalizeImage_le i
  unfold encodeJPEG isCanonicalContent
  simp [hm]
  exact hd

theorem convertRGB_of_rgb (i : ImageData) (h : i.mode = "RGB") : convertRGB i = i := by
  unfold convertRGB
  cases i
  simp_all

theorem normalizeImage_of_canonical (i : ImageData) (hm : i.mode = "RGB")
    (hd : max i.width i.height ≤ 2048) : normalizeImage i = i := by
  simp only [normalizeImage]
  rw [convertRGB_of_rgb i hm]
  have : resizeNeeded i = false := by
    unfold resizeNeeded
    simpa using by omega
  simp [this]

/-! ## Helper lemmas: prepStep case analysis and pass structure -/

theorem prepStep_skip (saveOk : String → Bool) (s : PrepState) (d n : String)
    (h : strEndsWith (strLower (joinPath d n)) ".txt" = true ∨
         strEndsWith (strLower (joinPath d n)) ".npz" = true) :
    prepStep true saveOk s (d, n) = s := by
  unfold prepStep
  rw [if_pos ⟨rfl, h⟩]

theorem prepStep_false_of_none (saveOk : String → Bool) (s : PrepState) (d n : String)
    (hl : lookupTree s.tree d n = none) :
    prepStep false saveOk s (d, n) = s := by
  unfold prepStep
  rw [if_neg (by simp)]
  simp only [hl]

theorem prepStep_false_quarantine (saveOk : String → Bool) (s : PrepState)
    (d n : String) (c : FileContent)
    (hl : lookupTree s.tree d n = some c) (hd : decodeImage c = none) :
    prepStep false saveOk s (d, n) = quarantine s d n c := by
  unfold prepStep
  rw [if_neg (by simp)]
  simp only [hl, hd]

theorem prepStep_false_saveFail (saveOk : String → Bool) (s : PrepState)
    (d n : String) (c : FileContent) (i : ImageData)
    (hl : lookupTree s.tree d n = some c) (hd : decodeImage c = some i)
    (hs : saveOk (joinPath d (canonName n)) = false) :
    prepStep false saveOk s (d, n) =
      { quarantine s d n c with
        resized := s.resized + (if resizeNeeded (convertRGB i) then 1 else 0) } := by
  unfold prepStep
  rw [if_neg (by simp)]
  simp only [hl, hd, hs]
  simp

theorem prepStep_false_save (saveOk : String → Bool) (s : PrepState)
    (d n : String) (c : FileContent) (i : ImageData)
    (hl : lookupTree s.tree d n = some c) (hd : decodeImage c = some i)
    (hs : saveOk (joinPath d (canonName n)) = true) :
    prepStep false saveOk s (d, n) =
      { tree :=
          if joinPath d (canonName n) = joinPath d n
          then writeTree s.tree d (canonName n) (encodeJPEG (normalizeImage i))
          else removeTree
            (writeTree s.tree d (canonName n) (encodeJPEG (normalizeImage i))) d n,
        errors := s.errors,
        totalImgs := s.totalImgs + 1,
        resized := s.resized + (if resizeNeeded (convertRGB i) then 1 else 0) } := by
  unfold prepStep
  rw [if_neg (by simp)]
  simp only [hl, hd, hs]
  simp

theorem prepPass_nil (sc : Bool) (sOk : String → Bool) (s : PrepState) :
    prepPass sc sOk s [] = s := rfl

theorem prepPass_cons (sc : Bool) (sOk : String → Bool) (s : PrepState)
    (e : String × String) (E : List (String × String)) :
    prepPass sc sOk s (e :: E) = prepPass sc sOk (prepStep sc sOk s e) E := rfl

theorem prepPass_append (sc : Bool) (sOk : String → Bool) (s : PrepState)
    (E₁ E₂ : List (String × String)) :
    prepPass sc sOk s (E₁ ++ E₂) = prepPass sc sOk (prepPass sc sOk s E₁) E₂ :=
  List.foldl_append _ _ _ _

theorem prepPass_preserve (P : PrepState → Prop) (sc : Bool) (sOk : String → Bool)
    (E : List (String × String)) (s : PrepState)
    (h0 : P s) (hstep : ∀ s₂ e, e ∈ E → P s₂ → P (prepStep sc sOk s₂ e)) :
    P (prepPass sc sOk s E) := by
  induction E generalizing s with
  | nil => exact h0
  | cons e E ih =>
    rw [prepPass_cons]
    exact ih (prepStep sc sOk s e) (hstep s e (List.mem_cons_self _ _) h0)
      (fun s₂ e₂ he₂ hp => hstep s₂ e₂ (List.mem_cons_of_mem _ he₂) hp)

theorem prepStep_lookup_frame (sc : Bool) (sOk : String → Bool) (s : PrepState)
    (d n d₂ n₂ : String)
    (h1 : ¬ (d₂ = d ∧ n₂ = n)) (h2 : ¬ (d₂ = d ∧ n₂ = canonName n)) :
    lookupTree (prepStep sc sOk s (d, n)).tree d₂ n₂ = lookupTree s.tree d₂ n₂ := by
  simp only [prepStep]
  split
  · rfl
  · split
    · rfl
    · split
      · simp [quarantine, lookupTree_removeTree_ne _ _ _ _ _ h1]
      · split
        · split
          · simp [lookupTree_writeTree, h2]
          · rw [lookupTree_removeTree_ne _ _ _ _ _ h1]
            simp [lookupTree_writeTree, h2]
        · simp [quarantine, lookupTree_removeTree_ne _ _ _ _ _ h1]

theorem prepStep_errors_isSome (sc : Bool) (sOk : String → Bool) (s : PrepState)
    (e : String × String) (m : String) (h : lookupErrors s.errors m ≠ none) :
    lookupErrors (prepStep sc sOk s e).errors m ≠ none := by
  simp only [prepStep]
  split
  · exact h
  · split
    · exact h
    · split
      · exact lookupErrors_isSome_mono _ _ _ _ h
      · split
        · exact h
        · exact lookupErrors_isSome_mono _ _ _ _ h

/-! ## Claim C4: caption cleanup -/

/-- C4: every caption written by `florence_caption_dataset` equals the parsed
answer with all `"<pad>"` occurrences removed, and the intended
`"The image shows a " -> "A "` substitution has no effect, because line 164
recomputes from the unmodified parsed answer instead of chaining (the
substitution alone would have produced `"A cat in a garden."`). -/
theorem claim_C4_caption_cleanup :
    (∀ parsedAnswer : String,
      florenceCaption parsedAnswer = pyReplace parsedAnswer "<pad>" "") ∧
    florenceCaption "The image shows a cat in a garden." =
      "The image shows a cat in a garden." ∧
    pyReplace "The image shows a cat in a garden." "The image shows a " "A " =
      "A cat in a garden." ∧
    florenceCaption "<pad>A cat<pad>" = "A cat" := by
  refine ⟨fun p => rfl, by decide, by decide, by decide⟩

/-! ## Claim C9: case-insensitive extension handling -/

/-- C9: extension classification lowercases before matching, so `X.PNG` is
discovered as an image and `NOTES.TXT` as a caption; `prep_dataset` with
`soft_clean` skips `.txt`/`.npz` after lowercasing the path; and the
normalizer output name always uses the lowercase `.jpg` extension, so an
input named `X.JPG` is rewritten to `X.jpg` and the original `X.JPG` is
deleted. -/
theorem claim_C9_case_insensitive :
    getImageAndCaptionPaths [("d", ["X.PNG", "NOTES.TXT", "b.jpg", "n.npz"])] =
      (["d/X.PNG", "d/b.jpg"], ["d/NOTES.TXT"]) ∧
    isImageName "photo.JPeG" = true ∧
    isImageName "photo.jpeg.bak" = false ∧
    isCaptionName "CAPS.TXT" = true ∧
    (∀ (sOk : String → Bool) (s : PrepState),
      prepStep true sOk s ("d", "A.TXT") = s ∧
      prepStep true sOk s ("d", "cache.NPZ") = s) ∧
    (∀ i : ImageData,
      lookupTree (prepDataset false (fun _ => true)
        [FsFile.mk "d" "X.JPG" (.image i "JPEG" none)]).tree "d" "X.JPG" = none ∧
      lookupTree (prepDataset false (fun _ => true)
        [FsFile.mk "d" "X.JPG" (.image i "JPEG" none)]).tree "d" "X.jpg" =
        some (encodeJPEG (normalizeImage i))) := by
  refine ⟨by decide, by decide, by decide, by decide, ?_, ?_⟩
  · intro sOk s
    exact ⟨prepStep_skip sOk s "d" "A.TXT" (Or.inl (by decide)),
           prepStep_skip sOk s "d" "cache.NPZ" (Or.inr (by decide))⟩
  · intro i
    exact ⟨rfl, rfl⟩

/-! ## Claim C10: base-name collisions -/

/-- C10: two images in one directory sharing a base name collide: the
captioner derives the same `x.txt` for both, so the later-processed image's
caption overwrites the earlier one and only one caption file results; the
normalizer maps both to the canonical `x.jpg`, so the second conversion
overwrites the first converted output, the non-canonical original is
deleted, and one image is lost (two conversions counted, one file left). -/
theorem claim_C10_basename_collision :
    (∀ model : String → String → String,
      captionOutPath "d/x.jpg" = "d/x.txt" ∧
      captionOutPath "d/x.png" = "d/x.txt" ∧
      lookupStore (runCaptioner model "<CAPTION>" 1 ["d/x.jpg", "d/x.png"] [])
          "d/x.txt" =
        some (florenceCaption (model "<CAPTION>" "d/x.png")) ∧
      (∀ q, lookupStore (runCaptioner model "<CAPTION>" 1 ["d/x.jpg", "d/x.png"] [])
          q ≠ none → q = "d/x.txt")) ∧
    (∀ iA iB : ImageData,
      lookupTree (prepDataset false (fun _ => true)
        [FsFile.mk "d" "x.jpg" (.image iA "JPEG" (some 80)),
         FsFile.mk "d" "x.png" (.image iB "PNG" none)]).tree "d" "x.jpg" =
        some (encodeJPEG (normalizeImage iB)) ∧
      lookupTree (prepDataset false (fun _ => true)
        [FsFile.mk "d" "x.jpg" (.image iA "JPEG" (some 80)),
         FsFile.mk "d" "x.png" (.image iB "PNG" none)]).tree "d" "x.png" = none ∧
      (prepDataset false (fun _ => true)
        [FsFile.mk "d" "x.jpg" (.image iA "JPEG" (some 80)),
         FsFile.mk "d" "x.png" (.image iB "PNG" none)]).tree.length = 1 ∧
      (prepDataset false (fun _ => true)
        [FsFile.mk "d" "x.jpg" (.image iA "JPEG" (some 80)),
         FsFile.mk "d" "x.png" (.image iB "PNG" none)]).totalImgs = 2 ∧
      (prepDataset false (fun _ => true)
        [FsFile.mk "d" "x.jpg" (.image iA "JPEG" (some 80)),
         FsFile.mk "d" "x.png" (.image iB "PNG" none)]).errors = []) := by
  constructor
  · intro model
    refine ⟨by decide, by decide, rfl, ?_⟩
    intro q h
    by_cases hq : "d/x.txt" = q
    · exact hq.symm
    · exfalso
      apply h
      have hrun : runCaptioner model "<CAPTION>" 1 ["d/x.jpg", "d/x.png"] [] =
          [("d/x.txt", florenceCaption (model "<CAPTION>" "d/x.png"))] := rfl
      rw [hrun]
      simp [lookupStore, hq]
  · intro iA iB
    exact ⟨rfl, rfl, rfl, rfl, rfl⟩

/-! ## Counterexamples for claims C1, C5, C8 -/

/-- C1 as stated is false: with `d/...` (a decodable image whose name is all
dots) and `d/....jpg` (another decodable image) both under the root, the pass
converts `...` onto `....jpg` (overwriting that file before it is processed)
and then renames `....jpg` to `....jpg.jpg`; afterwards the first file is
neither present at its canonical path `....jpg` nor quarantined — nothing
was ever quarantined. -/
theorem claim_C1_counterexample :
    canonName "..." = "....jpg" ∧
    lookupTree (prepDataset false (fun _ => true)
      [FsFile.mk "d" "..." (.image ⟨10, 10, "RGB"⟩ "PNG" none),
       FsFile.mk "d" "....jpg" (.image ⟨20, 20, "RGB"⟩ "PNG" none)]).tree
      "d" "....jpg" = none ∧
    (prepDataset false (fun _ => true)
      [FsFile.mk "d" "..." (.image ⟨10, 10, "RGB"⟩ "PNG" none),
       FsFile.mk "d" "....jpg" (.image ⟨20, 20, "RGB"⟩ "PNG" none)]).errors = [] := by
  decide

/-- C5's clause "a file whose path already ends in .jpg is re-encoded in
place without any deletion" is false for a file named exactly `.jpg`:
`os.path.splitext` treats the leading dot as part of the stem, so the
output name is `.jpg.jpg` and the original `.jpg` is deleted. -/
theorem claim_C5_counterexample :
    strEndsWith (joinPath "d" ".jpg") ".jpg" = true ∧
    lookupTree (prepDataset false (fun _ => true)
      [FsFile.mk "d" ".jpg" (.image ⟨64, 64, "RGB"⟩ "JPEG" (some 95))]).tree
      "d" ".jpg" = none ∧
    lookupTree (prepDataset false (fun _ => true)
      [FsFile.mk "d" ".jpg" (.image ⟨64, 64, "RGB"⟩ "JPEG" (some 95))]).tree
      "d" ".jpg.jpg" =
      some (FileContent.image ⟨64, 64, "RGB"⟩ "JPEG" (some 95)) := by
  decide

/-- C8 as stated is false: a decodable file named `...` (all dots) is
renamed by the first pass to `....jpg`, whose stem is again all dots, so the
second pass renames it once more to `....jpg.jpg` — the second pass deletes
a file and creates a new path, a further change. -/
theorem claim_C8_counterexample :
    lookupTree (prepDataset false (fun _ => true)
      [FsFile.mk "d" "..." (.image ⟨100, 100, "RGB"⟩ "PNG" none)]).tree
      "d" "....jpg" ≠ none ∧
    lookupTree (prepDataset false (fun _ => true)
      (prepDataset false (fun _ => true)
        [FsFile.mk "d" "..." (.image ⟨100, 100, "RGB"⟩ "PNG" none)]).tree).tree
      "d" "....jpg" = none ∧
    lookupTree (prepDataset false (fun _ => true)
      (prepDataset false (fun _ => true)
        [FsFile.mk "d" "..." (.image ⟨100, 100, "RGB"⟩ "PNG" none)]).tree).tree
      "d" "....jpg.jpg" ≠ none := by
  decide

/-! ## Claim C2: conversion of decodable files -/

/-- C2: a file whose content decodes is written (when the save succeeds) at
the canonical `.jpg` name in the same subdirectory as 3-channel RGB,
JPEG-encoded at quality 95, both dimensions at most 2048; the LANCZOS
downsample happens exactly when the larger dimension exceeds 2048, the
`resized` counter increments exactly then, and the converted counter
increments for each successful conversion; on the spec's concrete scenario
(512x512 `a.png` plus an undecodable `b.jpg`) the report is 1 converted,
0 resized, with `a.jpg` present, `a.png` removed and `b.jpg` quarantined. -/
theorem claim_C2_convert_and_counters :
    (∀ (saveOk : String → Bool) (s : PrepState) (d n : String)
        (c : FileContent) (i : ImageData),
      lookupTree s.tree d n = some c →
      decodeImage c = some i →
      saveOk (joinPath d (canonName n)) = true →
      lookupTree (prepStep false saveOk s (d, n)).tree d (canonName n) =
          some (encodeJPEG (normalizeImage i)) ∧
      (∃ b : String, canonName n = b ++ ".jpg") ∧
      encodeJPEG (normalizeImage i) =
        FileContent.image (normalizeImage i) "JPEG" (some 95) ∧
      (normalizeImage i).mode = "RGB" ∧
      (normalizeImage i).width ≤ 2048 ∧ (normalizeImage i).height ≤ 2048 ∧
      normalizeImage i =
        (if resizeNeeded (convertRGB i)
         then thumbnailImg ResampleFilter.lanczos (convertRGB i)
         else convertRGB i) ∧
      (prepStep false saveOk s (d, n)).totalImgs = s.totalImgs + 1 ∧
      (prepStep false saveOk s (d, n)).resized =
        s.resized + (if resizeNeeded (convertRGB i) then 1 else 0)) ∧
    ((prepDataset false (fun _ => true)
        [FsFile.mk "data" "a.png" (.image ⟨512, 512, "RGBA"⟩ "PNG" none),
         FsFile.mk "data" "b.jpg" (.raw "corrupt header")]).totalImgs = 1 ∧
     (prepDataset false (fun _ => true)
        [FsFile.mk "data" "a.png" (.image ⟨512, 512, "RGBA"⟩ "PNG" none),
         FsFile.mk "data" "b.jpg" (.raw "corrupt header")]).resized = 0 ∧
     lookupTree (prepDataset false (fun _ => true)
        [FsFile.mk "data" "a.png" (.image ⟨512, 512, "RGBA"⟩ "PNG" none),
         FsFile.mk "data" "b.jpg" (.raw "corrupt header")]).tree "data" "a.jpg" =
       some (FileContent.image ⟨512, 512, "RGB"⟩ "JPEG" (some 95)) ∧
     lookupTree (prepDataset false (fun _ => true)
        [FsFile.mk "data" "a.png" (.image ⟨512, 512, "RGBA"⟩ "PNG" none),
         FsFile.mk "data" "b.jpg" (.raw "corrupt header")]).tree "data" "a.png" =
       none ∧
     lookupErrors (prepDataset false (fun _ => true)
        [FsFile.mk "data" "a.png" (.image ⟨512, 512, "RGBA"⟩ "PNG" none),
         FsFile.mk "data" "b.jpg" (.raw "corrupt header")]).errors "b.jpg" =
       some (.raw "corrupt header")) := by
  constructor
  · intro saveOk s d n c i hl hd hs
    rw [prepStep_false_save saveOk s d n c i hl hd hs]
    refine ⟨?_, ⟨splitextStem n, rfl⟩, rfl, normalizeImage_mode i,
      (normalizeImage_le i).1, (normalizeImage_le i).2, rfl, rfl, rfl⟩
    by_cases hp : joinPath d (canonName n) = joinPath d n
    · simp only [if_pos hp]
      exact lookupTree_writeTree_self _ _ _ _
    · simp only [if_neg hp]
      have hnn : ¬ (d = d ∧ canonName n = n) := by
        intro hc
        exact hp (by rw [hc.2])
      rw [lookupTree_removeTree_ne _ _ _ _ _ hnn]
      exact lookupTree_writeTree_self _ _ _ _
  · exact ⟨by decide, by decide, by decide, by decide, by decide⟩

/-- Witness for C2: the general clause applied to a concrete 100x200 L-mode
PNG named `p.png` in directory `w`. -/
theorem claim_C2_witness :
    lookupTree (prepStep false (fun _ => true)
      ⟨[FsFile.mk "w" "p.png" (.image ⟨100, 200, "L"⟩ "PNG" none)], [], 0, 0⟩
      ("w", "p.png")).tree "w" (canonName "p.png") =
      some (encodeJPEG (normalizeImage ⟨100, 200, "L"⟩)) :=
  (claim_C2_convert_and_counters.1 (fun _ => true)
    ⟨[FsFile.mk "w" "p.png" (.image ⟨100, 200, "L"⟩ "PNG" none)], [], 0, 0⟩
    "w" "p.png" (.image ⟨100, 200, "L"⟩ "PNG" none) ⟨100, 200, "L"⟩ rfl rfl rfl).1

/-! ## Claim C5 (amended): deletion discipline of the normalizer -/

/-- C5 amended: the original file is deleted only when the canonical path
differs from the original and only with the new file successfully written;
on a decode or write failure the original is never deleted but quarantined
with its content; and a file whose name has a recognized `.jpg` extension
(per `os.path.splitext`, i.e. with a non-dot character in the stem — the
amendment forced by the `.jpg` dot-file counterexample) is re-encoded in
place with no other path touched. -/
theorem claim_C5_delete_discipline (saveOk : String → Bool) (s : PrepState)
    (d n : String) (c : FileContent)
    (hl : lookupTree s.tree d n = some c) :
    (decodeImage c = none →
      lookupErrors (prepStep false saveOk s (d, n)).errors n = some c ∧
      lookupTree (prepStep false saveOk s (d, n)).tree d n = none) ∧
    (∀ i, decodeImage c = some i →
      saveOk (joinPath d (canonName n)) = false →
      lookupErrors (prepStep false saveOk s (d, n)).errors n = some c ∧
      lookupTree (prepStep false saveOk s (d, n)).tree d n = none ∧
      (canonName n ≠ n →
        lookupTree (prepStep false saveOk s (d, n)).tree d (canonName n) =
          lookupTree s.tree d (canonName n))) ∧
    (∀ i, decodeImage c = some i →
      saveOk (joinPath d (canonName n)) = true →
      splitextExt n = ".jpg" →
      lookupTree (prepStep false saveOk s (d, n)).tree d n =
        some (encodeJPEG (normalizeImage i)) ∧
      (∀ d₂ n₂, ¬ (d₂ = d ∧ n₂ = n) →
        lookupTree (prepStep false saveOk s (d, n)).tree d₂ n₂ =
          lookupTree s.tree d₂ n₂)) ∧
    (∀ i, decodeImage c = some i →
      saveOk (joinPath d (canonName n)) = true →
      canonName n ≠ n →
      lookupTree (prepStep false saveOk s (d, n)).tree d n = none ∧
      lookupTree (prepStep false saveOk s (d, n)).tree d (canonName n) =
        some (encodeJPEG (normalizeImage i))) := by
  refine ⟨?_, ?_, ?_, ?_⟩
  · intro hd
    rw [prepStep_false_quarantine saveOk s d n c hl hd]
    constructor
    · simp [quarantine, lookupErrors_writeErrors]
    · simp [quarantine, lookupTree_removeTree]
  · intro i hd hs
    rw [prepStep_false_saveFail saveOk s d n c i hl hd hs]
    refine ⟨?_, ?_, ?_⟩
    · simp [quarantine, lookupErrors_writeErrors]
    · simp [quarantine, lookupTree_removeTree]
    · intro hne
      have h1 : ¬ (d = d ∧ canonName n = n) := fun hc => hne hc.2
      simp [quarantine, lookupTree_removeTree_ne _ _ _ _ _ h1]
  · intro i hd hs hjpg
    have hcn : canonName n = n := canonName_eq_self_of_ext_jpg n hjpg
    rw [prepStep_false_save saveOk s d n c i hl hd hs]
    rw [hcn, if_pos rfl]
    constructor
    · exact lookupTree_writeTree_self _ _ _ _
    · intro d₂ n₂ h12
      rw [lookupTree_writeTree]
      simp [h12]
  · intro i hd hs hne
    have hp : ¬ joinPath d (canonName n) = joinPath d n := by
      intro hc
      exact hne ((joinPath_inj_right d (canonName n) n).mp hc)
    rw [prepStep_false_save saveOk s d n c i hl hd hs]
    simp only [if_neg hp]
    constructor
    · exact lookupTree_removeTree_self _ _ _
    · have hnn : ¬ (d = d ∧ canonName n = n) := fun hc => hne hc.2
      rw [lookupTree_removeTree_ne _ _ _ _ _ hnn]
      exact lookupTree_writeTree_self _ _ _ _

/-- Witness for C5: the amended clauses applied to a concrete state holding
an undecodable `bad.bin` and an in-place `ok.jpg`. -/
theorem claim_C5_witness :
    lookupErrors (prepStep false (fun _ => true)
      ⟨[FsFile.mk "w" "bad.bin" (.raw "junk")], [], 0, 0⟩
      ("w", "bad.bin")).errors "bad.bin" = some (.raw "junk") ∧
    lookupTree (prepStep false (fun _ => true)
      ⟨[FsFile.mk "w" "ok.jpg" (.image ⟨10, 10, "RGB"⟩ "JPEG" (some 95))], [], 0, 0⟩
      ("w", "ok.jpg")).tree "w" "ok.jpg" =
      some (encodeJPEG (normalizeImage ⟨10, 10, "RGB"⟩)) :=
  ⟨((claim_C5_delete_discipline (fun _ => true)
      ⟨[FsFile.mk "w" "bad.bin" (.raw "junk")], [], 0, 0⟩
      "w" "bad.bin" (.raw "junk") rfl).1 rfl).1,
   (((claim_C5_delete_discipline (fun _ => true)
      ⟨[FsFile.mk "w" "ok.jpg" (.image ⟨10, 10, "RGB"⟩ "JPEG" (some 95))], [], 0, 0⟩
      "w" "ok.jpg" (.image ⟨10, 10, "RGB"⟩ "JPEG" (some 95)) rfl).2.2.1
      ⟨10, 10, "RGB"⟩ rfl rfl (by decide)).1)⟩

/-! ## Claim C3: quarantine of undecodable files -/

theorem lookupTree_of_mem_nodup (t : List FsFile) (f : FsFile) (h : f ∈ t)
    (hnd : (t.map keyOf).Nodup) :
    lookupTree t f.dir f.name = some f.content := by
  induction t with
  | nil => cases h
  | cons g gs ih =>
    rw [List.map_cons, List.nodup_cons] at hnd
    rcases List.mem_cons.mp h with rfl | hmem
    · rw [lookupTree, if_pos ⟨rfl, rfl⟩]
    · by_cases hg : g.dir = f.dir ∧ g.name = f.name
      · exfalso
        apply hnd.1
        have hmem2 : keyOf f ∈ gs.map keyOf := List.mem_map_of_mem keyOf hmem
        have hkey : keyOf g = keyOf f := by simp [keyOf, hg.1, hg.2]
        rw [hkey]
        exact hmem2
      · rw [lookupTree, if_neg hg]
        exact ih hmem hnd.2

theorem prepStep_lookup_frame_entry (sc : Bool) (sOk : String → Bool) (s : PrepState)
    (e : String × String) (d₂ n₂ : String)
    (h1 : ¬ (d₂ = e.1 ∧ n₂ = e.2)) (h2 : ¬ (d₂ = e.1 ∧ n₂ = canonName e.2)) :
    lookupTree (prepStep sc sOk s e).tree d₂ n₂ = lookupTree s.tree d₂ n₂ := by
  obtain ⟨a, b⟩ := e
  exact prepStep_lookup_frame sc sOk s a b d₂ n₂ h1 h2

/-- C3: an undecodable file (whose path no other file's canonical output
collides with) is moved — not copied — into the quarantine directory under
its bare name: after the pass the original path no longer holds a file and
the quarantine lookup succeeds; and processing continues past any file
(the pass over `E₁ ++ E₂` is the pass over `E₂` from the state after `E₁`,
so no per-file failure aborts the run). -/
theorem claim_C3_quarantine (t0 : List FsFile) (saveOk : String → Bool) (f : FsFile)
    (W1 : (t0.map keyOf).Nodup)
    (hf : f ∈ t0)
    (hbad : decodeImage f.content = none)
    (W3f : ∀ g ∈ t0, g.dir = f.dir → canonName g.name = f.name → g.name = f.name) :
    lookupTree (prepDataset false saveOk t0).tree f.dir f.name = none ∧
    lookupErrors (prepDataset false saveOk t0).errors f.name ≠ none ∧
    (∀ (s : PrepState) (E₁ E₂ : List (String × String)),
      prepPass false saveOk s (E₁ ++ E₂) =
        prepPass false saveOk (prepPass false saveOk s E₁) E₂) := by
  obtain ⟨A, B, hsplit⟩ := List.append_of_mem (List.mem_map_of_mem keyOf hf)
  have hW1s : (A ++ keyOf f :: B).Nodup := hsplit ▸ W1
  have hfA : keyOf f ∉ A := by
    rcases List.nodup_append.mp hW1s with ⟨-, -, hdisj⟩
    intro hmem
    exact hdisj hmem (List.mem_cons_self _ _)
  have hfB : keyOf f ∉ B := by
    rcases List.nodup_append.mp hW1s with ⟨-, hcons, -⟩
    exact (List.nodup_cons.mp hcons).1
  have hcond : ∀ e ∈ t0.map keyOf, e ≠ keyOf f →
      ¬ (f.dir = e.1 ∧ f.name = e.2) ∧ ¬ (f.dir = e.1 ∧ f.name = canonName e.2) := by
    intro e he hne
    obtain ⟨g, hg, rfl⟩ := List.mem_map.mp he
    constructor
    · intro hc
      apply hne
      simp only [keyOf, Prod.mk.injEq]
      exact ⟨hc.1.symm, hc.2.symm⟩
    · intro hc
      have hgn := W3f g hg hc.1.symm hc.2.symm
      apply hne
      simp only [keyOf, Prod.mk.injEq]
      exact ⟨hc.1.symm, hgn⟩
  have hA : lookupTree (prepPass false saveOk ⟨t0, [], 0, 0⟩ A).tree f.dir f.name =
      some f.content := by
    refine prepPass_preserve
      (fun s => lookupTree s.tree f.dir f.name = some f.content) false saveOk A _
      (lookupTree_of_mem_nodup t0 f hf W1) ?_
    intro s₂ e heA hP
    have heE : e ∈ t0.map keyOf := by
      rw [hsplit]
      exact List.mem_append_left _ heA
    have hne : e ≠ keyOf f := fun hc => hfA (hc ▸ heA)
    obtain ⟨h1, h2⟩ := hcond e heE hne
    rw [prepStep_lookup_frame_entry false saveOk s₂ e f.dir f.name h1 h2]
    exact hP
  have hstep := prepStep_false_quarantine saveOk
    (prepPass false saveOk ⟨t0, [], 0, 0⟩ A) f.dir f.name f.content hA hbad
  have hkey : keyOf f = (f.dir, f.name) := rfl
  have hfinal : prepDataset false saveOk t0 =
      prepPass false saveOk
        (prepStep false saveOk (prepPass false saveOk ⟨t0, [], 0, 0⟩ A) (f.dir, f.name))
        B := by
    unfold prepDataset
    rw [hsplit, prepPass_append, prepPass_cons, hkey]
  have hMid1 : lookupTree (prepStep false saveOk
      (prepPass false saveOk ⟨t0, [], 0, 0⟩ A) (f.dir, f.name)).tree f.dir f.name =
      none := by
    rw [hstep]
    simp [quarantine, lookupTree_removeTree]
  have hMid2 : lookupErrors (prepStep false saveOk
      (prepPass false saveOk ⟨t0, [], 0, 0⟩ A) (f.dir, f.name)).errors f.name ≠
      none := by
    rw [hstep]
    simp [quarantine, lookupErrors_writeErrors]
  have hend : lookupTree (prepDataset false saveOk t0).tree f.dir f.name = none ∧
      lookupErrors (prepDataset false saveOk t0).errors f.name ≠ none := by
    rw [hfinal]
    refine prepPass_preserve
      (fun s => lookupTree s.tree f.dir f.name = none ∧
        lookupErrors s.errors f.name ≠ none) false saveOk B _ ⟨hMid1, hMid2⟩ ?_
    intro s₂ e heB hP
    have heE : e ∈ t0.map keyOf := by
      rw [hsplit]
      exact List.mem_append_right _ (List.mem_cons_of_mem _ heB)
    have hne : e ≠ keyOf f := fun hc => hfB (hc ▸ heB)
    obtain ⟨h1, h2⟩ := hcond e heE hne
    constructor
    · rw [prepStep_lookup_frame_entry false saveOk s₂ e f.dir f.name h1 h2]
      exact hP.1
    · exact prepStep_errors_isSome false saveOk s₂ e f.name hP.2
  exact ⟨hend.1, hend.2, fun s E₁ E₂ => prepPass_append false saveOk s E₁ E₂⟩

/-- Witness for C3: a two-file tree where the undecodable `broken.png` comes
first and the decodable `ok.png` after it; the bad file is quarantined, its
path emptied, and the pass still converts the good file afterwards. -/
theorem claim_C3_witness :
    (lookupTree (prepDataset false (fun _ => true)
      [FsFile.mk "d" "broken.png" (.raw "truncated"),
       FsFile.mk "d" "ok.png" (.image ⟨8, 8, "RGB"⟩ "PNG" none)]).tree
      "d" "broken.png" = none ∧
     lookupErrors (prepDataset false (fun _ => true)
      [FsFile.mk "d" "broken.png" (.raw "truncated"),
       FsFile.mk "d" "ok.png" (.image ⟨8, 8, "RGB"⟩ "PNG" none)]).errors
      "broken.png" ≠ none) ∧
    lookupTree (prepDataset false (fun _ => true)
      [FsFile.mk "d" "broken.png" (.raw "truncated"),
       FsFile.mk "d" "ok.png" (.image ⟨8, 8, "RGB"⟩ "PNG" none)]).tree
      "d" "ok.jpg" ≠ none := by
  constructor
  · have h := claim_C3_quarantine
      [FsFile.mk "d" "broken.png" (.raw "truncated"),
       FsFile.mk "d" "ok.png" (.image ⟨8, 8, "RGB"⟩ "PNG" none)]
      (fun _ => true)
      (FsFile.mk "d" "broken.png" (.raw "truncated"))
      (by decide) (by decide) rfl (by decide)
    exact ⟨h.1, h.2.1⟩
  · decide

/-! ## Claim C1: the normalizer pass invariant -/

theorem mem_prepStep_false_tree (sOk : String → Bool) (s : PrepState)
    (e : String × String) (g : FsFile) (hg : g ∈ (prepStep false sOk s e).tree) :
    (∃ i, g = FsFile.mk e.1 (canonName e.2) (encodeJPEG (normalizeImage i))) ∨
    (g ∈ s.tree ∧ ¬ (g.dir = e.1 ∧ g.name = e.2)) ∨
    (g ∈ s.tree ∧ lookupTree s.tree e.1 e.2 = none) := by
  simp only [prepStep] at hg
  split at hg
  · next hcond => exact absurd hcond (by simp)
  · split at hg
    · next hnone => exact Or.inr (Or.inr ⟨hg, hnone⟩)
    · split at hg
      · exact Or.inr (Or.inl (mem_removeTree _ _ _ _ hg))
      · next img hdec =>
        split at hg
        · split at hg
          · next hpath =>
            have hcn : canonName e.2 = e.2 :=
              (joinPath_inj_right e.1 (canonName e.2) e.2).mp hpath
            rcases mem_writeTree _ _ _ _ _ hg with hnew | ⟨hold, hkey⟩
            · exact Or.inl ⟨img, hnew⟩
            · rw [hcn] at hkey
              exact Or.inr (Or.inl ⟨hold, hkey⟩)
          · rcases mem_removeTree _ _ _ _ hg with ⟨hg2, hkey⟩
            rcases mem_writeTree _ _ _ _ _ hg2 with hnew | ⟨hold, _⟩
            · exact Or.inl ⟨img, hnew⟩
            · exact Or.inr (Or.inl ⟨hold, hkey⟩)
        · exact Or.inr (Or.inl (mem_removeTree _ _ _ _ hg))

theorem prepPass_tree_canonical (sOk : String → Bool) (E : List (String × String))
    (s : PrepState)
    (h0 : ∀ g ∈ s.tree, isCanonicalContent g.content = true ∨ keyOf g ∈ E) :
    ∀ g ∈ (prepPass false sOk s E).tree, isCanonicalContent g.content = true := by
  induction E generalizing s with
  | nil =>
    intro g hg
    rcases h0 g hg with h | h
    · exact h
    · cases h
  | cons e E ih =>
    rw [prepPass_cons]
    apply ih
    intro g hg
    rcases mem_prepStep_false_tree sOk s e g hg with ⟨i, rfl⟩ | ⟨hmem, hne⟩ | ⟨hmem, hnone⟩
    · exact Or.inl (isCanonicalContent_encode i)
    · rcases h0 g hmem with h | h
      · exact Or.inl h
      · rcases List.mem_cons.mp h with hkey | hkey
        · exact absurd ⟨congrArg Prod.fst hkey, congrArg Prod.snd hkey⟩ hne
        · exact Or.inr hkey
    · rcases h0 g hmem with h | h
      · exact Or.inl h
      · rcases List.mem_cons.mp h with hkey | hkey
        · exfalso
          apply lookupTree_isSome_of_mem s.tree g hmem
          rw [show g.dir = e.1 from congrArg Prod.fst hkey,
            show g.name = e.2 from congrArg Prod.snd hkey]
          exact hnone
        · exact Or.inr hkey

theorem prepStep_lookup_or_canonical (sOk : String → Bool) (s : PrepState)
    (e : String × String) (d₂ n₂ : String) (h1 : ¬ (d₂ = e.1 ∧ n₂ = e.2)) :
    lookupTree (prepStep false sOk s e).tree d₂ n₂ = lookupTree s.tree d₂ n₂ ∨
    ∃ i, lookupTree (prepStep false sOk s e).tree d₂ n₂ =
      some (encodeJPEG (normalizeImage i)) := by
  simp only [prepStep]
  split
  · exact Or.inl rfl
  · split
    · exact Or.inl rfl
    · split
      · exact Or.inl (by simp [quarantine, lookupTree_removeTree_ne _ _ _ _ _ h1])
      · next img hdec =>
        split
        · by_cases hk : d₂ = e.1 ∧ n₂ = canonName e.2
          · refine Or.inr ⟨img, ?_⟩
            split
            · simp [hk.1, hk.2, lookupTree_writeTree]
            · rw [show lookupTree
                  (removeTree (writeTree s.tree e.1 (canonName e.2)
                    (encodeJPEG (normalizeImage img))) e.1 e.2) d₂ n₂ =
                  lookupTree (writeTree s.tree e.1 (canonName e.2)
                    (encodeJPEG (normalizeImage img))) d₂ n₂ from
                lookupTree_removeTree_ne _ _ _ _ _ h1]
              simp [hk.1, hk.2, lookupTree_writeTree]
          · refine Or.inl ?_
            split
            · simp [lookupTree_writeTree, hk]
            · rw [show lookupTree
                  (removeTree (writeTree s.tree e.1 (canonName e.2)
                    (encodeJPEG (normalizeImage img))) e.1 e.2) d₂ n₂ =
                  lookupTree (writeTree s.tree e.1 (canonName e.2)
                    (encodeJPEG (normalizeImage img))) d₂ n₂ from
                lookupTree_removeTree_ne _ _ _ _ _ h1]
              simp [lookupTree_writeTree, hk]
        · exact Or.inl (by simp [quarantine, lookupTree_removeTree_ne _ _ _ _ _ h1])

theorem prepStep_save_target (saveOk : String → Bool) (s : PrepState)
    (d n : String) (c : FileContent) (i : ImageData)
    (hl : lookupTree s.tree d n = some c) (hd : decodeImage c = some i)
    (hs : saveOk (joinPath d (canonName n)) = true) :
    lookupTree (prepStep false saveOk s (d, n)).tree d (canonName n) =
      some (encodeJPEG (normalizeImage i)) := by
  rw [prepStep_false_save saveOk s d n c i hl hd hs]
  by_cases hp : joinPath d (canonName n) = joinPath d n
  · simp only [if_pos hp]
    exact lookupTree_writeTree_self _ _ _ _
  · simp only [if_neg hp]
    have hnn : ¬ (d = d ∧ canonName n = n) := by
      intro hc
      exact hp (by rw [hc.2])
    rw [lookupTree_removeTree_ne _ _ _ _ _ hnn]
    exact lookupTree_writeTree_self _ _ _ _

theorem prepStep_save_original_gone (saveOk : String → Bool) (s : PrepState)
    (d n : String) (c : FileContent) (i : ImageData)
    (hl : lookupTree s.tree d n = some c) (hd : decodeImage c = some i)
    (hs : saveOk (joinPath d (canonName n)) = true) (hne : canonName n ≠ n) :
    lookupTree (prepStep false saveOk s (d, n)).tree d n = none := by
  rw [prepStep_false_save saveOk s d n c i hl hd hs]
  have hp : ¬ joinPath d (canonName n) = joinPath d n := by
    intro hc
    exact hne ((joinPath_inj_right d (canonName n) n).mp hc)
  simp only [if_neg hp]
  exact lookupTree_removeTree_self _ _ _

theorem prepDataset_file_outcome (t0 : List FsFile) (saveOk : String → Bool)
    (f : FsFile)
    (W1 : (t0.map keyOf).Nodup) (hf : f ∈ t0)
    (W3 : ∀ g ∈ t0, ∀ g₂ ∈ t0, g₂.dir = g.dir → g₂.name = canonName g.name →
      g₂.name = g.name) :
    ((∃ cc, lookupTree (prepDataset false saveOk t0).tree f.dir (canonName f.name) =
        some cc ∧ isCanonicalContent cc = true) ∨
      lookupErrors (prepDataset false saveOk t0).errors f.name ≠ none) ∧
    (canonName f.name ≠ f.name →
      lookupTree (prepDataset false saveOk t0).tree f.dir f.name = none) := by
  obtain ⟨A, B, hsplit⟩ := List.append_of_mem (List.mem_map_of_mem keyOf hf)
  have hW1s : (A ++ keyOf f :: B).Nodup := hsplit ▸ W1
  have hfA : keyOf f ∉ A := by
    rcases List.nodup_append.mp hW1s with ⟨-, -, hdisj⟩
    intro hmem
    exact hdisj hmem (List.mem_cons_self _ _)
  have hfB : keyOf f ∉ B := by
    rcases List.nodup_append.mp hW1s with ⟨-, hcons, -⟩
    exact (List.nodup_cons.mp hcons).1
  have hcond : ∀ e ∈ t0.map keyOf, e ≠ keyOf f →
      ¬ (f.dir = e.1 ∧ f.name = e.2) ∧ ¬ (f.dir = e.1 ∧ f.name = canonName e.2) := by
    intro e he hne
    obtain ⟨g, hg, rfl⟩ := List.mem_map.mp he
    constructor
    · intro hc
      apply hne
      simp only [keyOf, Prod.mk.injEq]
      exact ⟨hc.1.symm, hc.2.symm⟩
    · intro hc
      have hgn := W3 g hg f hf hc.1 hc.2
      apply hne
      simp only [keyOf, Prod.mk.injEq]
      exact ⟨hc.1.symm, hgn.symm⟩
  have htarcond : ∀ e ∈ t0.map keyOf, e ≠ keyOf f →
      ¬ (f.dir = e.1 ∧ canonName f.name = e.2) := by
    intro e he hne
    obtain ⟨g, hg, rfl⟩ := List.mem_map.mp he
    intro hc
    have hgn := W3 f hf g hg hc.1.symm hc.2.symm
    apply hne
    simp only [keyOf, Prod.mk.injEq]
    exact ⟨hc.1.symm, hgn⟩
  have hA : lookupTree (prepPass false saveOk ⟨t0, [], 0, 0⟩ A).tree f.dir f.name =
      some f.content := by
    refine prepPass_preserve
      (fun s => lookupTree s.tree f.dir f.name = some f.content) false saveOk A _
      (lookupTree_of_mem_nodup t0 f hf W1) ?_
    intro s₂ e heA hP
    have heE : e ∈ t0.map keyOf := by
      rw [hsplit]
      exact List.mem_append_left _ heA
    have hne : e ≠ keyOf f := fun hc => hfA (hc ▸ heA)
    obtain ⟨h1, h2⟩ := hcond e heE hne
    rw [prepStep_lookup_frame_entry false saveOk s₂ e f.dir f.name h1 h2]
    exact hP
  have hkey : keyOf f = (f.dir, f.name) := rfl
  have hfinal : prepDataset false saveOk t0 =
      prepPass false saveOk
        (prepStep false saveOk (prepPass false saveOk ⟨t0, [], 0, 0⟩ A)
          (f.dir, f.name)) B := by
    unfold prepDataset
    rw [hsplit, prepPass_append, prepPass_cons, hkey]
  have hmid : ((∃ cc, lookupTree (prepStep false saveOk
        (prepPass false saveOk ⟨t0, [], 0, 0⟩ A) (f.dir, f.name)).tree
        f.dir (canonName f.name) = some cc ∧ isCanonicalContent cc = true) ∨
      lookupErrors (prepStep false saveOk
        (prepPass false saveOk ⟨t0, [], 0, 0⟩ A) (f.dir, f.name)).errors f.name ≠
        none) ∧
      (canonName f.name ≠ f.name →
        lookupTree (prepStep false saveOk
          (prepPass false saveOk ⟨t0, [], 0, 0⟩ A) (f.dir, f.name)).tree
          f.dir f.name = none) := by
    cases hdec : decodeImage f.content with
    | none =>
      rw [prepStep_false_quarantine saveOk _ f.dir f.name f.content hA hdec]
      constructor
      · refine Or.inr ?_
        simp [quarantine, lookupErrors_writeErrors]
      · intro _
        simp [quarantine, lookupTree_removeTree]
    | some i =>
      by_cases hsv : saveOk (joinPath f.dir (canonName f.name)) = true
      · constructor
        · exact Or.inl ⟨encodeJPEG (normalizeImage i),
            prepStep_save_target saveOk _ f.dir f.name f.content i hA hdec hsv,
            isCanonicalContent_encode i⟩
        · intro hnc
          exact prepStep_save_original_gone saveOk _ f.dir f.name f.content i
            hA hdec hsv hnc
      · have hsv2 : saveOk (joinPath f.dir (canonName f.name)) = false := by
          cases hb : saveOk (joinPath f.dir (canonName f.name))
          · rfl
          · exact absurd hb hsv
        rw [prepStep_false_saveFail saveOk _ f.dir f.name f.content i hA hdec hsv2]
        constructor
        · refine Or.inr ?_
          simp [quarantine, lookupErrors_writeErrors]
        · intro _
          simp [quarantine, lookupTree_removeTree]
  rw [hfinal]
  refine prepPass_preserve
    (fun s => ((∃ cc, lookupTree s.tree f.dir (canonName f.name) = some cc ∧
        isCanonicalContent cc = true) ∨ lookupErrors s.errors f.name ≠ none) ∧
      (canonName f.name ≠ f.name → lookupTree s.tree f.dir f.name = none))
    false saveOk B _ hmid ?_
  intro s₂ e heB hP
  have heE : e ∈ t0.map keyOf := by
    rw [hsplit]
    exact List.mem_append_right _ (List.mem_cons_of_mem _ heB)
  have hne : e ≠ keyOf f := fun hc => hfB (hc ▸ heB)
  obtain ⟨h1, h2⟩ := hcond e heE hne
  have htar := htarcond e heE hne
  constructor
  · rcases hP.1 with ⟨cc, hcc, hcan⟩ | herr
    · rcases prepStep_lookup_or_canonical saveOk s₂ e f.dir (canonName f.name) htar
        with heq | ⟨i2, hnew⟩
      · exact Or.inl ⟨cc, by rw [heq]; exact hcc, hcan⟩
      · exact Or.inl ⟨_, hnew, isCanonicalContent_encode i2⟩
    · exact Or.inr (prepStep_errors_isSome false saveOk s₂ e f.name herr)
  · intro hnc
    rw [prepStep_lookup_frame_entry false saveOk s₂ e f.dir f.name h1 h2]
    exact hP.2 hnc

/-- C1 amended: provided no two distinct files in the same directory share a
canonical output path and no file's canonical output path equals another
file's original name (the amendment forced by the all-dots counterexample),
a `prep_dataset` pass with default arguments leaves every initial file
either present at its canonical path with canonical content (decodable JPEG
at quality 95, RGB, longest side at most 2048) or represented in the
quarantine directory under its bare name; every file remaining in the tree
is in canonical form (nothing partially converted); and no renamed file's
original path survives (nothing duplicated). -/
theorem claim_C1_pass_invariant (t0 : List FsFile) (saveOk : String → Bool)
    (W1 : (t0.map keyOf).Nodup)
    (W3 : ∀ g ∈ t0, ∀ g₂ ∈ t0, g₂.dir = g.dir → g₂.name = canonName g.name →
      g₂.name = g.name) :
    (∀ f ∈ t0,
      (∃ cc, lookupTree (prepDataset false saveOk t0).tree f.dir (canonName f.name) =
          some cc ∧ isCanonicalContent cc = true) ∨
      lookupErrors (prepDataset false saveOk t0).errors f.name ≠ none) ∧
    (∀ g ∈ (prepDataset false saveOk t0).tree, isCanonicalContent g.content = true) ∧
    (∀ f ∈ t0, canonName f.name ≠ f.name →
      lookupTree (prepDataset false saveOk t0).tree f.dir f.name = none) := by
  refine ⟨?_, ?_, ?_⟩
  · intro f hf
    exact (prepDataset_file_outcome t0 saveOk f W1 hf W3).1
  · exact prepPass_tree_canonical saveOk (t0.map keyOf) ⟨t0, [], 0, 0⟩
      (fun g hg => Or.inr (List.mem_map_of_mem keyOf hg))
  · intro f hf hnc
    exact (prepDataset_file_outcome t0 saveOk f W1 hf W3).2 hnc

/-- Witness for C1: the amended invariant applied to a three-file tree with
an oversized PNG, an in-place JPEG and an undecodable text file. -/
theorem claim_C1_witness :
    (∃ cc, lookupTree (prepDataset false (fun _ => true)
      [FsFile.mk "d" "big.png" (.image ⟨4096, 1024, "RGBA"⟩ "PNG" none),
       FsFile.mk "d" "ok.jpg" (.image ⟨5, 5, "RGB"⟩ "JPEG" (some 95)),
       FsFile.mk "d" "note.txt" (.raw "caption text")]).tree
      "d" (canonName "big.png") = some cc ∧ isCanonicalContent cc = true) ∨
    lookupErrors (prepDataset false (fun _ => true)
      [FsFile.mk "d" "big.png" (.image ⟨4096, 1024, "RGBA"⟩ "PNG" none),
       FsFile.mk "d" "ok.jpg" (.image ⟨5, 5, "RGB"⟩ "JPEG" (some 95)),
       FsFile.mk "d" "note.txt" (.raw "caption text")]).errors "big.png" ≠ none :=
  (claim_C1_pass_invariant
    [FsFile.mk "d" "big.png" (.image ⟨4096, 1024, "RGBA"⟩ "PNG" none),
     FsFile.mk "d" "ok.jpg" (.image ⟨5, 5, "RGB"⟩ "JPEG" (some 95)),
     FsFile.mk "d" "note.txt" (.raw "caption text")]
    (fun _ => true) (by decide) (by decide)).1
    (FsFile.mk "d" "big.png" (.image ⟨4096, 1024, "RGBA"⟩ "PNG" none))
    (by decide)

/-! ## Claim C8: idempotence of the normalizer -/

theorem isCanonicalContent_inv (c : FileContent) (h : isCanonicalContent c = true) :
    ∃ j, c = FileContent.image j "JPEG" (some 95) ∧ j.mode = "RGB" ∧
      max j.width j.height ≤ 2048 := by
  cases c with
  | image j fmt q =>
    unfold isCanonicalContent at h
    simp only [Bool.and_eq_true, decide_eq_true_eq] at h
    refine ⟨j, ?_, h.1.2, ?_⟩
    · rw [h.1.1.1, h.1.1.2]
    · exact h.2
  | raw t => simp [isCanonicalContent] at h

theorem prepPass_tree_canon2 (sOk : String → Bool) (E : List (String × String))
    (s : PrepState)
    (hE : ∀ e ∈ E, e.2.data.any (fun c => c != '.') = true)
    (h0 : ∀ g ∈ s.tree,
      (isCanonicalContent g.content = true ∧ canonName g.name = g.name) ∨
        keyOf g ∈ E) :
    ∀ g ∈ (prepPass false sOk s E).tree,
      isCanonicalContent g.content = true ∧ canonName g.name = g.name := by
  induction E generalizing s with
  | nil =>
    intro g hg
    rcases h0 g hg with h | h
    · exact h
    · cases h
  | cons e E ih =>
    rw [prepPass_cons]
    apply ih _ (fun e₂ he₂ => hE e₂ (List.mem_cons_of_mem _ he₂))
    intro g hg
    rcases mem_prepStep_false_tree sOk s e g hg with ⟨i, rfl⟩ | ⟨hmem, hne⟩ | ⟨hmem, hnone⟩
    · refine Or.inl ⟨isCanonicalContent_encode i, ?_⟩
      exact canonName_canonName e.2 (hE e (List.mem_cons_self _ _))
    · rcases h0 g hmem with h | h
      · exact Or.inl h
      · rcases List.mem_cons.mp h with hkey | hkey
        · exact absurd ⟨congrArg Prod.fst hkey, congrArg Prod.snd hkey⟩ hne
        · exact Or.inr hkey
    · rcases h0 g hmem with h | h
      · exact Or.inl h
      · rcases List.mem_cons.mp h with hkey | hkey
        · exfalso
          apply lookupTree_isSome_of_mem s.tree g hmem
          rw [show g.dir = e.1 from congrArg Prod.fst hkey,
            show g.name = e.2 from congrArg Prod.snd hkey]
          exact hnone
        · exact Or.inr hkey

theorem prepDataset_id_of_canon2 (t1 : List FsFile)
    (hcan : ∀ g ∈ t1, isCanonicalContent g.content = true ∧
      canonName g.name = g.name) :
    (∀ d n, lookupTree (prepDataset false (fun _ => true) t1).tree d n =
      lookupTree t1 d n) ∧
    (prepDataset false (fun _ => true) t1).errors = [] ∧
    (prepDataset false (fun _ => true) t1).resized = 0 := by
  refine prepPass_preserve
    (fun s => (∀ d n, lookupTree s.tree d n = lookupTree t1 d n) ∧
      s.errors = [] ∧ s.resized = 0)
    false (fun _ => true) (t1.map keyOf) ⟨t1, [], 0, 0⟩
    ⟨fun d n => rfl, rfl, rfl⟩ ?_
  intro s₂ e heE hP
  obtain ⟨g, hg, rfl⟩ := List.mem_map.mp heE
  have hsome : lookupTree t1 g.dir g.name ≠ none := lookupTree_isSome_of_mem t1 g hg
  obtain ⟨c, hc⟩ := Option.ne_none_iff_exists'.mp hsome
  have hmem2 := mem_of_lookupTree_eq_some t1 g.dir g.name c hc
  have hcc := hcan _ hmem2
  obtain ⟨j, hcj, hmode, hdims⟩ := isCanonicalContent_inv c hcc.1
  have hstable : canonName g.name = g.name := hcc.2
  have hdec : decodeImage c = some j := by rw [hcj]; rfl
  have hl2 : lookupTree s₂.tree g.dir g.name = some c := by rw [hP.1, hc]
  have henc : encodeJPEG (normalizeImage j) = c := by
    rw [normalizeImage_of_canonical j hmode hdims, hcj]
    rfl
  have hnores : resizeNeeded (convertRGB j) = false := by
    rw [convertRGB_of_rgb j hmode]
    unfold resizeNeeded
    simpa using by omega
  have hkey : keyOf g = (g.dir, g.name) := rfl
  rw [hkey, prepStep_false_save (fun _ => true) s₂ g.dir g.name c j hl2 hdec rfl]
  refine ⟨?_, by simpa using hP.2.1, by simp [hnores, hP.2.2]⟩
  intro d n
  rw [hstable, if_pos rfl]
  simp only [lookupTree_writeTree]
  by_cases hdn : d = g.dir ∧ n = g.name
  · rw [if_pos hdn, henc, hdn.1, hdn.2, hc]
  · rw [if_neg hdn]
    exact hP.1 d n

/-- C8 amended: provided every file name under the root contains a non-dot
character (the amendment forced by the `...` counterexample, whose stem is
all dots and is renamed again on the second pass), running `prep_dataset` a
second time over the output of a first pass changes nothing: every path
resolves to the same content as after the first pass (each file is
re-encoded in place to the identical canonical output), nothing is
quarantined and nothing is resized. -/
theorem claim_C8_idempotent (t0 : List FsFile)
    (hdots : ∀ f ∈ t0, f.name.data.any (fun c => c != '.') = true) :
    (∀ d n, lookupTree (prepDataset false (fun _ => true)
        (prepDataset false (fun _ => true) t0).tree).tree d n =
      lookupTree (prepDataset false (fun _ => true) t0).tree d n) ∧
    (prepDataset false (fun _ => true)
      (prepDataset false (fun _ => true) t0).tree).errors = [] ∧
    (prepDataset false (fun _ => true)
      (prepDataset false (fun _ => true) t0).tree).resized = 0 := by
  have hE : ∀ e ∈ t0.map keyOf, e.2.data.any (fun c => c != '.') = true := by
    intro e he
    obtain ⟨g, hg, rfl⟩ := List.mem_map.mp he
    exact hdots g hg
  have hcan := prepPass_tree_canon2 (fun _ => true) (t0.map keyOf) ⟨t0, [], 0, 0⟩ hE
    (fun g hg => Or.inr (List.mem_map_of_mem keyOf hg))
  exact prepDataset_id_of_canon2 _ hcan

/-- Witness for C8: a second pass over the normalized output of a tree
holding `a.PNG` (decodable) leaves the canonical `a.jpg` lookup unchanged. -/
theorem claim_C8_witness :
    lookupTree (prepDataset false (fun _ => true)
      (prepDataset false (fun _ => true)
        [FsFile.mk "d" "a.PNG" (.image ⟨512, 512, "RGBA"⟩ "PNG" none)]).tree).tree
      "d" "a.jpg" =
    lookupTree (prepDataset false (fun _ => true)
      [FsFile.mk "d" "a.PNG" (.image ⟨512, 512, "RGBA"⟩ "PNG" none)]).tree
      "d" "a.jpg" :=
  (claim_C8_idempotent
    [FsFile.mk "d" "a.PNG" (.image ⟨512, 512, "RGBA"⟩ "PNG" none)]
    (by decide)).1 "d" "a.jpg"

/-! ## Claims C6 and C7: caption files and batch invariance -/

theorem chunkListAux_join {α : Type} (bs : Nat) (hbs : 0 < bs) :
    ∀ (fuel : Nat) (l : List α), l.length ≤ fuel →
      (chunkListAux bs fuel l).flatten = l := by
  intro fuel
  induction fuel with
  | zero =>
    intro l hl
    rw [List.eq_nil_of_length_eq_zero (Nat.le_zero.mp hl)]
    rfl
  | succ fuel ih =>
    intro l hl
    cases l with
    | nil => rfl
    | cons x xs =>
      rw [chunkListAux, List.flatten_cons]
      rw [ih ((x :: xs).drop bs) (by simp at hl ⊢; omega)]
      exact List.take_append_drop bs (x :: xs)

theorem chunkList_join {α : Type} (bs : Nat) (hbs : 0 < bs) (l : List α) :
    (chunkList bs l).flatten = l := by
  unfold chunkList
  rw [if_neg (by omega)]
  exact chunkListAux_join bs hbs l.length l (le_refl _)

theorem chunkListAux_foldl {α β : Type} (bs : Nat) (hbs : 0 < bs) (g : β → α → β) :
    ∀ (fuel : Nat) (l : List α), l.length ≤ fuel → ∀ (init : β),
      (chunkListAux bs fuel l).foldl (fun st b => b.foldl g st) init =
        l.foldl g init := by
  intro fuel
  induction fuel with
  | zero =>
    intro l hl init
    rw [List.eq_nil_of_length_eq_zero (Nat.le_zero.mp hl)]
    rfl
  | succ fuel ih =>
    intro l hl init
    cases l with
    | nil => rfl
    | cons x xs =>
      rw [chunkListAux, List.foldl_cons]
      rw [ih ((x :: xs).drop bs) (by simp at hl ⊢; omega)]
      conv_rhs => rw [← List.take_append_drop bs (x :: xs)]
      rw [List.foldl_append]

theorem runCaptioner_eq_foldl (model : String → String → String)
    (captionMode : String) (bs : Nat) (paths : List String)
    (store : List (String × String)) (hbs : 0 < bs) :
    runCaptioner model captionMode bs paths store =
      paths.foldl
        (fun st p => writeStore st (captionOutPath p)
          (florenceCaption (model captionMode p)))
        store := by
  unfold runCaptioner chunkList
  rw [if_neg (by omega)]
  exact chunkListAux_foldl bs hbs _ paths.length paths (le_refl _) store

theorem foldl_write_frame (model : String → String → String) (captionMode : String)
    (paths : List String) (store : List (String × String)) (q : String)
    (hq : ∀ p ∈ paths, captionOutPath p ≠ q) :
    lookupStore (paths.foldl
      (fun st p => writeStore st (captionOutPath p)
        (florenceCaption (model captionMode p))) store) q = lookupStore store q := by
  induction paths generalizing store with
  | nil => rfl
  | cons x xs ih =>
    rw [List.foldl_cons]
    rw [ih _ (fun p hp => hq p (List.mem_cons_of_mem _ hp))]
    rw [lookupStore_writeStore]
    have : ¬ q = captionOutPath x := fun hc => hq x (List.mem_cons_self _ _) hc.symm
    rw [if_neg this]

theorem foldl_write_lookup (model : String → String → String) (captionMode : String)
    (paths : List String) (store : List (String × String)) (p : String)
    (hp : p ∈ paths)
    (hdist : paths.Pairwise (fun a b => captionOutPath a ≠ captionOutPath b)) :
    lookupStore (paths.foldl
      (fun st r => writeStore st (captionOutPath r)
        (florenceCaption (model captionMode r))) store) (captionOutPath p) =
      some (florenceCaption (model captionMode p)) := by
  induction paths generalizing store with
  | nil => cases hp
  | cons x xs ih =>
    rcases List.mem_cons.mp hp with rfl | hmem
    · rw [List.foldl_cons]
      rw [foldl_write_frame model captionMode xs _ (captionOutPath p)
        (fun r hr => ((List.pairwise_cons.mp hdist).1 r hr).symm)]
      rw [lookupStore_writeStore, if_pos rfl]
    · rw [List.foldl_cons]
      exact ih _ hmem (List.pairwise_cons.mp hdist).2

/-- C6: for every image discovered by a captioning run (provided the
discovered images derive pairwise distinct caption paths), exactly one
caption file results for that image: its lookup after the run holds exactly
the cleaned caption of that image — any pre-existing content at that path is
fully replaced, whatever the initial store held — while every path that is
not some image's caption path is untouched; and the caption path is the
image's directory joined with its extension-stripped base name plus
`.txt`. -/
theorem claim_C6_caption_files (model : String → String → String)
    (captionMode : String) (bs : Nat) (walk : List (String × List String))
    (store : List (String × String)) (p : String)
    (hbs : 0 < bs)
    (hp : p ∈ (getImageAndCaptionPaths walk).1)
    (hdist : (getImageAndCaptionPaths walk).1.Pairwise
      (fun a b => captionOutPath a ≠ captionOutPath b)) :
    lookupStore (florenceCaptionDataset model captionMode bs walk store)
        (captionOutPath p) =
      some (florenceCaption (model captionMode p)) ∧
    (∀ q, (∀ r ∈ (getImageAndCaptionPaths walk).1, captionOutPath r ≠ q) →
      lookupStore (florenceCaptionDataset model captionMode bs walk store) q =
        lookupStore store q) ∧
    captionOutPath p =
      joinPath (dirnameStr p) (splitextStem (basenameStr p)) ++ ".txt" := by
  refine ⟨?_, ?_, rfl⟩
  · unfold florenceCaptionDataset
    rw [runCaptioner_eq_foldl model captionMode bs _ store hbs]
    exact foldl_write_lookup model captionMode _ store p hp hdist
  · intro q hq
    unfold florenceCaptionDataset
    rw [runCaptioner_eq_foldl model captionMode bs _ store hbs]
    exact foldl_write_frame model captionMode _ store q hq

/-- Witness for C6: a concrete two-image walk with a pre-existing caption
for `x.jpg`, batch size 2; the caption of `d/x.jpg` is the cleaned model
answer, replacing the old content. -/
theorem claim_C6_witness :
    lookupStore (florenceCaptionDataset (fun _ p => p ++ "<pad> described")
        "<CAPTION>" 2 [("d", ["x.jpg", "y.png"])] [("d/x.txt", "old caption")])
        (captionOutPath "d/x.jpg") =
      some (florenceCaption ((fun (_ p : String) => p ++ "<pad> described")
        "<CAPTION>" "d/x.jpg")) :=
  (claim_C6_caption_files (fun _ p => p ++ "<pad> described") "<CAPTION>" 2
    [("d", ["x.jpg", "y.png"])] [("d/x.txt", "old caption")] "d/x.jpg"
    (by decide) (by decide) (by decide)).1

/-- C7: with the captioning model a deterministic per-image function of the
fixed task prompt and the image, a captioning run writes identical caption
content for every batch size: runs with batch sizes `bs1` and `bs2` produce
equal caption stores, and the contiguous batches of size `bs1` concatenate
back to exactly the discovered (sorted) image list — every image is covered
exactly once, in order. -/
theorem claim_C7_batch_invariance (model : String → String → String)
    (captionMode : String) (bs1 bs2 : Nat) (walk : List (String × List String))
    (store : List (String × String))
    (h1 : 0 < bs1) (h2 : 0 < bs2) :
    florenceCaptionDataset model captionMode bs1 walk store =
      florenceCaptionDataset model captionMode bs2 walk store ∧
    (chunkList bs1 (getImageAndCaptionPaths walk).1).flatten =
      (getImageAndCaptionPaths walk).1 := by
  constructor
  · unfold florenceCaptionDataset
    rw [runCaptioner_eq_foldl model captionMode bs1 _ store h1,
      runCaptioner_eq_foldl model captionMode bs2 _ store h2]
  · exact chunkList_join bs1 h1 _

/-- Witness for C7: batch sizes 1 and 3 over a concrete three-image walk
give equal caption stores. -/
theorem claim_C7_witness :
    florenceCaptionDataset (fun m p => m ++ p) "<CAPTION>" 1
        [("d", ["x.jpg", "y.png", "z.jpeg"])] [] =
      florenceCaptionDataset (fun m p => m ++ p) "<CAPTION>" 3
        [("d", ["x.jpg", "y.png", "z.jpeg"])] [] :=
  (claim_C7_batch_invariance (fun m p => m ++ p) "<CAPTION>" 1 3
    [("d", ["x.jpg", "y.png", "z.jpeg"])] [] (by decide) (by decide)).1

/-- Witness for C4: the pad-strip identity applied at a concrete string. -/
theorem claim_C4_witness :
    florenceCaption "a<pad>b" = pyReplace "a<pad>b" "<pad>" "" :=
  claim_C4_caption_cleanup.1 "a<pad>b"

/-- Witness for C9: the soft-clean skip applied at a concrete state. -/
theorem claim_C9_witness :
    prepStep true (fun _ => true) ⟨[], [], 0, 0⟩ ("d", "A.TXT") =
      (⟨[], [], 0, 0⟩ : PrepState) :=
  (claim_C9_case_insensitive.2.2.2.2.1 (fun _ => true) ⟨[], [], 0, 0⟩).1

/-- Witness for C10: the colliding caption path applied at a concrete model. -/
theorem claim_C10_witness :
    captionOutPath "d/x.jpg" = "d/x.txt" :=
  (claim_C10_basename_collision.1 (fun _ _ => "")).1
